import Mathlib

/-!
# Todo list widget (`src/App.jsx`): task store, derived view and theme preference

A shallow embedding of the state logic of the `App` component.

* The component state (`todos`, `newTodo`, `editingTodo`) is a record `AppState`; each
  handler of the component (`addTodo`, `toggleTodo`, `deleteTodo`, `updateTodo`) is a
  function from the state it closes over to the state after its `set...` calls.
* Handlers run one at a time, each on the state the previous one left (React re-renders
  between two user events, so every handler closes over the current state).
* `Date.now()` is an explicit argument `now` of `addTodo`.
* `toast({ title := ... })` is recorded as the title appended to `AppState.toasts`.
* JavaScript Numbers are the rationals that doubles denote; an arithmetic operation is
  its exact result rounded by `roundDouble` (to nearest, ties to even).
* JavaScript strings are Lean strings (sequences of code points). Every character that
  `String.prototype.trim` strips lies in the basic plane, so trimming code points and
  trimming UTF-16 code units agree on well-formed strings.
-/

namespace TodoApp

/-! ## Strings -/

/-- The code points `String.prototype.trim` strips: ECMAScript `WhiteSpace`
(TAB, VT, FF, SP, NBSP, ZWNBSP and the category Zs) and `LineTerminator`
(LF, CR, LS, PS). -/
def isTrimChar (c : Char) : Bool :=
  c.toNat = 0x09 || c.toNat = 0x0A || c.toNat = 0x0B || c.toNat = 0x0C || c.toNat = 0x0D ||
  c.toNat = 0x20 || c.toNat = 0xA0 || c.toNat = 0x1680 ||
  (0x2000 ≤ c.toNat && c.toNat ≤ 0x200A) ||
  c.toNat = 0x2028 || c.toNat = 0x2029 || c.toNat = 0x202F || c.toNat = 0x205F ||
  c.toNat = 0x3000 || c.toNat = 0xFEFF

/-- Characters left after stripping trim characters from both ends. -/
def trimChars (cs : List Char) : List Char :=
  ((cs.dropWhile isTrimChar).reverse.dropWhile isTrimChar).reverse

/-- The method `String.prototype.trim`. -/
def trim (s : String) : String :=
  ⟨trimChars s.data⟩

/-! ## Data model -/

/-- One entry of `todos`: the object literal of `addTodo`, with fields `id`, `text`, `completed`. -/
structure Todo where
  id : Int
  text : String
  completed : Bool
  deriving DecidableEq

/-- The component state held by the `useState` hooks of `App` that the handlers touch,
together with the titles of the toasts emitted so far. -/
structure AppState where
  todos : List Todo
  newTodo : String
  editingTodo : Option Todo
  toasts : List String
  deriving DecidableEq

/-- Initial state: `useState([])`, `useState("")`, `useState(null)`. -/
def AppState.init : AppState :=
  { todos := [], newTodo := "", editingTodo := none, toasts := [] }

/-! ## Handlers -/

/-- The setter `setNewTodo`, called by the input's `onChange`. -/
def setNewTodo (text : String) (s : AppState) : AppState :=
  { s with newTodo := text }

/-- The setter `setEditingTodo`, called when the edit dialog is opened. -/
def setEditingTodo (e : Option Todo) (s : AppState) : AppState :=
  { s with editingTodo := e }

/-- Handler `addTodo` (lines 31-40); `now` is the value of `Date.now()`. -/
def addTodo (now : Int) (s : AppState) : AppState :=
  if trim s.newTodo ≠ "" then
    { s with
      todos := s.todos ++ [{ id := now, text := s.newTodo, completed := false }]
      newTodo := ""
      toasts := s.toasts ++ ["Task added"] }
  else s

/-- Handler `toggleTodo` (lines 42-46). -/
def toggleTodo (id : Int) (s : AppState) : AppState :=
  { s with
    todos := s.todos.map fun todo =>
      if todo.id = id then { todo with completed := !todo.completed } else todo }

/-- Handler `deleteTodo` (lines 48-55). -/
def deleteTodo (id : Int) (s : AppState) : AppState :=
  { s with
    todos := s.todos.filter fun todo => todo.id ≠ id
    toasts := s.toasts ++ ["Task deleted"] }

/-- Handler `updateTodo` (lines 57-66). -/
def updateTodo (id : Int) (newText : String) (s : AppState) : AppState :=
  { s with
    todos := s.todos.map fun todo =>
      if todo.id = id then { todo with text := newText } else todo
    editingTodo := none
    toasts := s.toasts ++ ["Task updated"] }

/-- The operation `add(text)`: the user types `text` into the input (`setNewTodo`) and
presses Add (`addTodo`) when the clock reads `now`. -/
def add (now : Int) (text : String) (s : AppState) : AppState :=
  addTodo now (setNewTodo text s)

/-- The ids of the stored tasks, in list order. -/
def ids (s : AppState) : List Int :=
  s.todos.map Todo.id

/-! ## Derived view -/

/-- The constant `completedTasks` (line 68). -/
def completedTasks (s : AppState) : Nat :=
  (s.todos.filter fun todo => todo.completed).length

/-- The constant `totalTasks` (line 69). -/
def totalTasks (s : AppState) : Nat :=
  s.todos.length

/-- The integer nearest to a rational, the even one of the two when it lies halfway. -/
def roundHalfEven (m : ℚ) : ℤ :=
  if m - ⌊m⌋ < 1 / 2 then ⌊m⌋
  else if 1 / 2 < m - ⌊m⌋ then ⌊m⌋ + 1
  else if ⌊m⌋ % 2 = 0 then ⌊m⌋
  else ⌊m⌋ + 1

/-- The exponent of the unit in the last place of the doubles around a rational: 52
below the exponent of its leading bit, and -1074 throughout the subnormal range. -/
def ulpExponent (x : ℚ) : ℤ :=
  max (Int.log 2 |x|) (-1022) - 52

/-- The double (IEEE 754 binary64 value) that a Number operation returns for the exact
result `x`: the nearest multiple of the unit in the last place, ties to the even
significand. Overflow to `Infinity` (exact results of magnitude `2 ^ 1024 - 2 ^ 970` and
more) is left out: line 70 only produces values between 0 and 100. -/
def roundDouble (x : ℚ) : ℚ :=
  roundHalfEven (x / 2 ^ ulpExponent x) * 2 ^ ulpExponent x

/-- The constant `completionPercentage` (line 70). `completedTasks` and `totalTasks`
are array lengths, integers below `2 ^ 32`, which are Numbers exactly; the division and
the multiplication each round their exact result to a double. The result is the rational
number that the double denotes. -/
def completionPercentage (s : AppState) : ℚ :=
  if totalTasks s > 0 then
    roundDouble (roundDouble ((completedTasks s : ℚ) / (totalTasks s : ℚ)) * 100)
  else 0

/-! ## Sessions -/

/-- A user action on the task store. -/
inductive Action where
  | add (now : Int) (text : String)
  | toggle (id : Int)
  | delete (id : Int)
  | updateText (id : Int) (newText : String)
  deriving DecidableEq

/-- The state after one action. -/
def step (s : AppState) : Action → AppState
  | .add now text => add now text s
  | .toggle id => toggleTodo id s
  | .delete id => deleteTodo id s
  | .updateText id newText => updateTodo id newText s

/-- The state reached from the initial state by a sequence of actions. -/
def run (acts : List Action) : AppState :=
  acts.foldl step AppState.init

/-- The clock values of the `add` actions that create a task (those whose trimmed text
is not empty), in call order: the ids handed out during the session. -/
def createdIds : List Action → List Int
  | [] => []
  | .add now text :: rest =>
    if trim text ≠ "" then now :: createdIds rest else createdIds rest
  | _ :: rest => createdIds rest

/-- The clock values of all `add` actions, in call order. -/
def clockValues : List Action → List Int
  | [] => []
  | .add now _ :: rest => now :: clockValues rest
  | _ :: rest => clockValues rest

/-! ## Theme preference

`JSON.parse` is a builtin; it is modelled here after the JSON grammar of ECMA-404, which
ECMAScript prescribes for it.
-/

/-- A JavaScript value that `JSON.parse` can return. Strings are sequences of UTF-16 code
units. A number keeps the exact decimal value of its literal, `mantissa * 10 ^ exp10`,
and `negative` records a leading minus sign. -/
inductive JSValue where
  | null
  | bool (b : Bool)
  | number (negative : Bool) (mantissa : Nat) (exp10 : Int)
  | string (units : List Nat)
  | array (items : List JSValue)
  | object (members : List (List Nat × JSValue))

/-- Outcome of a parsing function on the characters still to read. -/
inductive Parsed (α : Type) where
  | ok (value : α) (rest : List Char)
  | invalid
  | outOfFuel

/-- Apply a function to the value of a successful parse. -/
def Parsed.map {α β : Type} (f : α → β) : Parsed α → Parsed β
  | .ok v rest => .ok (f v) rest
  | .invalid => .invalid
  | .outOfFuel => .outOfFuel

/-- JSON white space: tab, line feed, carriage return, space. -/
def isJsonWs (c : Char) : Bool :=
  c = '\t' || c = '\n' || c = '\r' || c = ' '

/-- Drop leading JSON white space. -/
def skipWs (cs : List Char) : List Char :=
  cs.dropWhile isJsonWs

/-- The UTF-16 code units of a code point. -/
def utf16 (c : Char) : List Nat :=
  if c.toNat < 0x10000 then [c.toNat]
  else [0xD800 + (c.toNat - 0x10000) / 0x400, 0xDC00 + (c.toNat - 0x10000) % 0x400]

/-- Value of a hexadecimal digit. -/
def hexValue (c : Char) : Option Nat :=
  if '0' ≤ c ∧ c ≤ '9' then some (c.toNat - '0'.toNat)
  else if 'a' ≤ c ∧ c ≤ 'f' then some (c.toNat - 'a'.toNat + 10)
  else if 'A' ≤ c ∧ c ≤ 'F' then some (c.toNat - 'A'.toNat + 10)
  else none

/-- Code unit of the escape `\uXXXX`. -/
def hex4 (a b c d : Char) : Option Nat :=
  match hexValue a, hexValue b, hexValue c, hexValue d with
  | some x, some y, some z, some w => some (((x * 16 + y) * 16 + z) * 16 + w)
  | _, _, _, _ => none

/-- Code unit of a one-character escape. -/
def simpleEscape (c : Char) : Option Nat :=
  if c = '"' then some 0x22
  else if c = '\\' then some 0x5C
  else if c = '/' then some 0x2F
  else if c = 'b' then some 0x08
  else if c = 'f' then some 0x0C
  else if c = 'n' then some 0x0A
  else if c = 'r' then some 0x0D
  else if c = 't' then some 0x09
  else none

/-- Prepend code units to the value of a successful parse. -/
def Parsed.prepend (us : List Nat) (p : Parsed (List Nat)) : Parsed (List Nat) :=
  p.map (us ++ ·)

/-- The characters of a JSON string after its opening quote, up to the closing quote. -/
def parseStringBody : List Char → Parsed (List Nat)
  | [] => .invalid
  | c :: rest =>
    if c = '"' then .ok [] rest
    else if c = '\\' then
      match rest with
      | [] => .invalid
      | e :: rest2 =>
        if e = 'u' then
          match rest2 with
          | a :: b :: c2 :: d :: rest3 =>
            match hex4 a b c2 d with
            | some u => (parseStringBody rest3).prepend [u]
            | none => .invalid
          | _ => .invalid
        else
          match simpleEscape e with
          | some u => (parseStringBody rest2).prepend [u]
          | none => .invalid
    else if c.toNat < 0x20 then .invalid
    else (parseStringBody rest).prepend (utf16 c)

/-- Value of a run of decimal digits. -/
def digitsValue (ds : List Char) : Nat :=
  ds.foldl (fun n d => 10 * n + (d.toNat - '0'.toNat)) 0

/-- The optional fraction of a JSON number: its digits and the rest. -/
def parseFraction : List Char → Option (List Char × List Char)
  | '.' :: r =>
    if r.takeWhile Char.isDigit = [] then none
    else some (r.takeWhile Char.isDigit, r.dropWhile Char.isDigit)
  | cs => some ([], cs)

/-- The digits of an exponent, after its sign. -/
def parseExponentDigits (negative : Bool) (r : List Char) : Option (Int × List Char) :=
  if r.takeWhile Char.isDigit = [] then none
  else some
    (if negative then -(digitsValue (r.takeWhile Char.isDigit) : Int)
     else (digitsValue (r.takeWhile Char.isDigit) : Int),
     r.dropWhile Char.isDigit)

/-- The optional exponent of a JSON number: its value and the rest. -/
def parseExponent : List Char → Option (Int × List Char)
  | [] => some (0, [])
  | c :: r =>
    if c = 'e' ∨ c = 'E' then
      match r with
      | '+' :: r2 => parseExponentDigits false r2
      | '-' :: r2 => parseExponentDigits true r2
      | _ => parseExponentDigits false r
    else some (0, c :: r)

/-- A JSON number after its optional minus sign. -/
def parseUnsigned (negative : Bool) : List Char → Parsed JSValue
  | [] => .invalid
  | d :: r =>
    if ¬ d.isDigit then .invalid
    else
      match parseFraction (if d = '0' then r else r.dropWhile Char.isDigit) with
      | none => .invalid
      | some (frac, cs3) =>
        match parseExponent cs3 with
        | none => .invalid
        | some (e, cs4) =>
          .ok (.number negative
            (digitsValue ((if d = '0' then [d] else d :: r.takeWhile Char.isDigit) ++ frac))
            (e - frac.length)) cs4

/-- A JSON number. -/
def parseNumber : List Char → Parsed JSValue
  | '-' :: r => parseUnsigned true r
  | cs => parseUnsigned false cs

mutual

/-- A JSON value, with leading white space. -/
def parseValue : Nat → List Char → Parsed JSValue
  | 0, _ => .outOfFuel
  | fuel + 1, cs =>
    match skipWs cs with
    | 'n' :: 'u' :: 'l' :: 'l' :: rest => .ok .null rest
    | 't' :: 'r' :: 'u' :: 'e' :: rest => .ok (.bool true) rest
    | 'f' :: 'a' :: 'l' :: 's' :: 'e' :: rest => .ok (.bool false) rest
    | '"' :: rest => (parseStringBody rest).map .string
    | '[' :: rest =>
      match skipWs rest with
      | ']' :: rest2 => .ok (.array []) rest2
      | _ => (parseElements fuel rest).map .array
    | '{' :: rest =>
      match skipWs rest with
      | '}' :: rest2 => .ok (.object []) rest2
      | _ => (parseMembers fuel rest).map .object
    | cs1 => parseNumber cs1

/-- The elements of a non-empty JSON array, up to the closing bracket. -/
def parseElements : Nat → List Char → Parsed (List JSValue)
  | 0, _ => .outOfFuel
  | fuel + 1, cs =>
    match parseValue fuel cs with
    | .ok v rest =>
      match skipWs rest with
      | ',' :: rest2 => (parseElements fuel rest2).map (v :: ·)
      | ']' :: rest2 => .ok [v] rest2
      | _ => .invalid
    | .invalid => .invalid
    | .outOfFuel => .outOfFuel

/-- The members of a non-empty JSON object, up to the closing brace. -/
def parseMembers : Nat → List Char → Parsed (List (List Nat × JSValue))
  | 0, _ => .outOfFuel
  | fuel + 1, cs =>
    match skipWs cs with
    | '"' :: rest =>
      match parseStringBody rest with
      | .ok key rest1 =>
        match skipWs rest1 with
        | ':' :: rest2 =>
          match parseValue fuel rest2 with
          | .ok v rest3 =>
            match skipWs rest3 with
            | ',' :: rest4 => (parseMembers fuel rest4).map ((key, v) :: ·)
            | '}' :: rest4 => .ok [(key, v)] rest4
            | _ => .invalid
          | .invalid => .invalid
          | .outOfFuel => .outOfFuel
        | _ => .invalid
      | .invalid => .invalid
      | .outOfFuel => .outOfFuel
    | _ => .invalid

end

/-- What evaluating an expression around `JSON.parse` does: it yields a value, or
`JSON.parse` throws its `SyntaxError`. The third case is the parser of this file stopping
for lack of fuel, which never happens (`JSON_parse_ne_outOfFuel`). -/
inductive ParseOutcome where
  | value (v : JSValue)
  | throws
  | outOfFuel

/-- The function `JSON.parse` on a string. -/
def JSON.parse (text : String) : ParseOutcome :=
  match parseValue (2 * text.data.length + 2) text.data with
  | .ok v rest => if skipWs rest = [] then .value v else .throws
  | .invalid => .throws
  | .outOfFuel => .outOfFuel

/-- Whether a number literal denotes a Number that is `+0` or `-0`: the mantissa is zero,
or the value is at most `2 ^ (-1075)` and rounds (to nearest, ties to even) to zero. -/
def numberIsZero (mantissa : Nat) (exp10 : Int) : Bool :=
  mantissa = 0 || (exp10 < 0 && mantissa * 2 ^ 1075 ≤ 10 ^ exp10.natAbs)

/-- The abstract operation `ToBoolean` on the values `JSON.parse` returns. -/
def truthy : JSValue → Bool
  | .null => false
  | .bool b => b
  | .number _ mantissa exp10 => !numberIsZero mantissa exp10
  | .string units => !units.isEmpty
  | .array _ => true
  | .object _ => true

/-- The content of `localStorage`: its key-value entries. -/
abbrev Storage := List (String × String)

/-- The method `localStorage.getItem`: the value of the entry, `null` when there is none. -/
def getItem (key : String) (st : Storage) : Option String :=
  (st.find? fun e => e.1 = key).map Prod.snd

/-- The method `localStorage.setItem`: the entry is created or overwritten. -/
def setItem (key value : String) (st : Storage) : Storage :=
  (key, value) :: st.filter fun e => e.1 ≠ key

/-- The conversion `ToString` that `JSON.parse` applies to its argument, on the results
of `getItem`: `null` becomes the string "null". -/
def argToString : Option String → String
  | none => "null"
  | some text => text

/-- The function `JSON.stringify` on a boolean. -/
def stringifyBool : Bool → String
  | true => "true"
  | false => "false"

/-- The initialiser of the `darkMode` state (line 19):
`JSON.parse(localStorage.getItem('darkMode')) || false`. -/
def loadDarkMode (st : Storage) : ParseOutcome :=
  match JSON.parse (argToString (getItem "darkMode" st)) with
  | .value v => .value (if truthy v then v else .bool false)
  | .throws => .throws
  | .outOfFuel => .outOfFuel

/-- The write of the persistence effect (line 23) for a boolean `darkMode`:
`localStorage.setItem('darkMode', JSON.stringify(darkMode))`. -/
def persistDarkMode (darkMode : Bool) (st : Storage) : Storage :=
  setItem "darkMode" (stringifyBool darkMode) st

/-- Whether an action keeps the texts non-empty by its argument alone: every action but
an `updateText` with the empty string. -/
def keepsTextNonEmpty : Action → Bool
  | .updateText _ newText => newText ≠ ""
  | _ => true

/-! ## Basic facts -/

theorem trim_empty : trim "" = "" := rfl

theorem ne_empty_of_trim_ne_empty {t : String} (h : trim t ≠ "") : t ≠ "" := by
  intro ht
  exact h (ht ▸ trim_empty)

theorem add_todos_of_trim_empty (now : Int) (t : String) (s : AppState)
    (h : trim t = "") : (add now t s).todos = s.todos := by
  simp [add, addTodo, setNewTodo, h]

theorem add_todos_of_trim_ne_empty (now : Int) (t : String) (s : AppState)
    (h : trim t ≠ "") :
    (add now t s).todos = s.todos ++ [{ id := now, text := t, completed := false }] := by
  simp [add, addTodo, setNewTodo, h]

/-- Length of the task list after a run of `add` calls from any state. -/
theorem length_foldl_add (calls : List (Int × String)) (s : AppState) :
    (calls.foldl (fun st c => add c.1 c.2 st) s).todos.length
      = s.todos.length + calls.countP (fun c => decide (trim c.2 ≠ "")) := by
  induction calls generalizing s with
  | nil => simp
  | cons c rest ih =>
    rw [List.foldl_cons, ih]
    by_cases h : trim c.2 = ""
    · rw [add_todos_of_trim_empty _ _ _ h, List.countP_cons_of_neg]
      simpa using h
    · rw [add_todos_of_trim_ne_empty _ _ _ h, List.countP_cons_of_pos]
      · simp only [List.length_append, List.length_singleton]
        omega
      · simpa using h

theorem filter_ne_id_of_not_mem (id : Int) (l : List Todo) (h : id ∉ l.map Todo.id) :
    l.filter (fun todo => decide (todo.id ≠ id)) = l := by
  rw [List.filter_eq_self]
  intro todo hm
  have : todo.id ≠ id := fun e => h (e ▸ List.mem_map_of_mem Todo.id hm)
  simpa using this

theorem map_ite_of_not_mem (id : Int) (f : Todo → Todo) (l : List Todo)
    (h : id ∉ l.map Todo.id) :
    l.map (fun todo => if todo.id = id then f todo else todo) = l := by
  conv_rhs => rw [← List.map_id l]
  apply List.map_congr_left
  intro todo hm
  have : todo.id ≠ id := fun e => h (e ▸ List.mem_map_of_mem Todo.id hm)
  simp [this]

theorem ids_toggleTodo (id : Int) (s : AppState) : ids (toggleTodo id s) = ids s := by
  simp only [ids, toggleTodo, List.map_map]
  apply List.map_congr_left
  intro todo _
  by_cases h : todo.id = id <;> simp [h]

theorem ids_updateTodo (id : Int) (newText : String) (s : AppState) :
    ids (updateTodo id newText s) = ids s := by
  simp only [ids, updateTodo, List.map_map]
  apply List.map_congr_left
  intro todo _
  by_cases h : todo.id = id <;> simp [h]

theorem ids_deleteTodo_sublist (id : Int) (s : AppState) :
    (ids (deleteTodo id s)).Sublist (ids s) := by
  simp only [ids, deleteTodo]
  exact (List.filter_sublist _).map _

/-- The ids stored after a run of actions are, in order, among the ids stored before
followed by the ids handed out during the run. -/
theorem ids_foldl_step_sublist (acts : List Action) (s : AppState) :
    (ids (acts.foldl step s)).Sublist (ids s ++ createdIds acts) := by
  induction acts generalizing s with
  | nil => simp [createdIds]
  | cons a rest ih =>
    rw [List.foldl_cons]
    refine (ih (step s a)).trans ?_
    cases a with
    | add now text =>
      by_cases h : trim text = ""
      · simp [step, createdIds, ids, add_todos_of_trim_empty _ _ _ h, h]
      · simp [step, createdIds, ids, add_todos_of_trim_ne_empty _ _ _ h, h]
    | toggle id =>
      simp [step, createdIds, ids_toggleTodo]
    | delete id =>
      simp only [step, createdIds]
      exact (ids_deleteTodo_sublist id s).append (List.Sublist.refl _)
    | updateText id newText =>
      simp [step, createdIds, ids_updateTodo]

theorem completedTasks_le_totalTasks (s : AppState) : completedTasks s ≤ totalTasks s :=
  List.length_filter_le _ _

/-! ## Rounding to doubles -/

theorem roundHalfEven_le {m : ℚ} {k : ℤ} (h : m ≤ k) : roundHalfEven m ≤ k := by
  have hfl : ⌊m⌋ ≤ k := Int.floor_le_iff.2 (lt_of_le_of_lt h (by linarith))
  have hfrac : (⌊m⌋ : ℚ) ≤ m := Int.floor_le m
  by_cases heq : ⌊m⌋ = k
  · have hm : m - ⌊m⌋ < 1 / 2 := by
      rw [heq]; linarith
    unfold roundHalfEven
    rw [if_pos hm, heq]
  · have : ⌊m⌋ + 1 ≤ k := by omega
    unfold roundHalfEven
    split_ifs <;> omega

theorem le_roundHalfEven {m : ℚ} {k : ℤ} (h : (k : ℚ) ≤ m) : k ≤ roundHalfEven m := by
  have hfl : k ≤ ⌊m⌋ := Int.le_floor.2 h
  unfold roundHalfEven
  split_ifs <;> omega

theorem abs_roundHalfEven_sub_le (m : ℚ) : |(roundHalfEven m : ℚ) - m| ≤ 1 / 2 := by
  have h1 : (⌊m⌋ : ℚ) ≤ m := Int.floor_le m
  have h2 : m < ⌊m⌋ + 1 := Int.lt_floor_add_one m
  rw [abs_le]
  unfold roundHalfEven
  split_ifs with ha hb hc
  · constructor <;> linarith
  · push_cast; constructor <;> linarith
  · have : m - ⌊m⌋ = 1 / 2 := le_antisymm (not_lt.1 hb) (not_lt.1 ha)
    constructor <;> linarith
  · have : m - ⌊m⌋ = 1 / 2 := le_antisymm (not_lt.1 hb) (not_lt.1 ha)
    push_cast; constructor <;> linarith

theorem roundHalfEven_eq_of_abs_lt {m : ℚ} {n : ℤ} (h : |m - n| < 1 / 2) :
    roundHalfEven m = n := by
  have h1 := abs_roundHalfEven_sub_le m
  rw [abs_lt] at h
  rw [abs_le] at h1
  have hlt : ((roundHalfEven m - n : ℤ) : ℚ) < 1 := by push_cast; linarith
  have hgt : (-1 : ℚ) < ((roundHalfEven m - n : ℤ) : ℚ) := by push_cast; linarith
  have hlt2 : roundHalfEven m - n < 1 := by exact_mod_cast hlt
  have hgt2 : -1 < roundHalfEven m - n := by exact_mod_cast hgt
  omega

theorem ulpExponent_le {x : ℚ} {k : ℤ} (hx : 0 < x) (hk : x < 2 ^ (k + 1))
    (hmin : -1022 ≤ k) : ulpExponent x ≤ k - 52 := by
  have hlog : Int.log 2 |x| < k + 1 := by
    rw [abs_of_pos hx]
    exact (Int.lt_zpow_iff_log_lt (by norm_num) hx).1 (by exact_mod_cast hk)
  unfold ulpExponent
  have := max_le (Int.lt_add_one_iff.1 hlog) hmin
  omega

theorem ulpExponent_eq {x : ℚ} {e : ℤ} (hmin : -1022 ≤ e) (h1 : 2 ^ e ≤ x)
    (h2 : x < 2 ^ (e + 1)) : ulpExponent x = e - 52 := by
  have hx : 0 < x := lt_of_lt_of_le (by positivity) h1
  have hlt : Int.log 2 |x| < e + 1 := by
    rw [abs_of_pos hx]
    exact (Int.lt_zpow_iff_log_lt (by norm_num) hx).1 (by exact_mod_cast h2)
  have hge : e ≤ Int.log 2 |x| := by
    rw [abs_of_pos hx]
    exact (Int.zpow_le_iff_le_log (by norm_num) hx).1 (by exact_mod_cast h1)
  unfold ulpExponent
  have : Int.log 2 |x| = e := by omega
  rw [this, max_eq_left hmin]

theorem roundDouble_zero : roundDouble 0 = 0 := by
  simp [roundDouble, roundHalfEven]

theorem roundDouble_nonneg {x : ℚ} (hx : 0 ≤ x) : 0 ≤ roundDouble x := by
  unfold roundDouble
  have hm : ((0 : ℤ) : ℚ) ≤ x / 2 ^ ulpExponent x := by
    simp only [Int.cast_zero]; positivity
  have := le_roundHalfEven hm
  have h2 : (0 : ℚ) ≤ (roundHalfEven (x / 2 ^ ulpExponent x) : ℚ) := by exact_mod_cast this
  positivity

/-- An exact result at most a natural number below `2 ^ 53` rounds to at most it. -/
theorem roundDouble_le_natCast {x : ℚ} {b : ℕ} (hx : 0 ≤ x) (hxb : x ≤ b)
    (hb : b < 2 ^ 53) : roundDouble x ≤ b := by
  rcases hx.eq_or_lt with h0 | hpos
  · rw [← h0, roundDouble_zero]; exact Nat.cast_nonneg b
  have hb2 : (b : ℚ) < 2 ^ ((52 : ℤ) + 1) := by
    have h53 : ((52 : ℤ) + 1) = ((53 : ℕ) : ℤ) := by norm_num
    rw [h53, zpow_natCast]
    exact_mod_cast hb
  have hq : ulpExponent x ≤ 0 := by
    have := ulpExponent_le hpos (lt_of_le_of_lt hxb hb2) (by norm_num)
    omega
  obtain ⟨j, hj⟩ : ∃ j : ℕ, ulpExponent x = -(j : ℤ) := ⟨(-ulpExponent x).toNat, by omega⟩
  unfold roundDouble
  rw [hj]
  have hpow : (2 : ℚ) ^ (-(j : ℤ)) = 1 / 2 ^ j := by
    rw [zpow_neg, zpow_natCast, one_div]
  rw [hpow]
  have hpos2 : (0 : ℚ) < 2 ^ j := by positivity
  have hm : x / (1 / 2 ^ j) ≤ ((b * 2 ^ j : ℕ) : ℤ) := by
    push_cast
    rw [div_div_eq_mul_div, div_one]
    exact mul_le_mul_of_nonneg_right hxb hpos2.le
  have hn := roundHalfEven_le hm
  have hn2 : (roundHalfEven (x / (1 / 2 ^ j)) : ℚ) ≤ (b : ℚ) * 2 ^ j := by exact_mod_cast hn
  rw [mul_one_div, div_le_iff₀ hpos2]
  exact hn2

/-- An exact result below `2 ^ 53` and at least a natural number rounds to at least it. -/
theorem natCast_le_roundDouble {x : ℚ} {b : ℕ} (hbx : (b : ℚ) ≤ x) (hpos : 0 < x)
    (hx : x < 2 ^ 53) : (b : ℚ) ≤ roundDouble x := by
  have hx2 : x < 2 ^ ((52 : ℤ) + 1) := by
    have : ((52 : ℤ) + 1) = ((53 : ℕ) : ℤ) := by norm_num
    rw [this, zpow_natCast]; exact hx
  have hq : ulpExponent x ≤ 0 := by
    have := ulpExponent_le hpos hx2 (by norm_num)
    omega
  obtain ⟨j, hj⟩ : ∃ j : ℕ, ulpExponent x = -(j : ℤ) := ⟨(-ulpExponent x).toNat, by omega⟩
  unfold roundDouble
  rw [hj]
  have hpow : (2 : ℚ) ^ (-(j : ℤ)) = 1 / 2 ^ j := by
    rw [zpow_neg, zpow_natCast, one_div]
  rw [hpow]
  have hpos2 : (0 : ℚ) < 2 ^ j := by positivity
  have hm : (((b * 2 ^ j : ℕ) : ℤ) : ℚ) ≤ x / (1 / 2 ^ j) := by
    push_cast
    rw [div_div_eq_mul_div, div_one]
    exact mul_le_mul_of_nonneg_right hbx hpos2.le
  have hn := le_roundHalfEven hm
  have hn2 : (b : ℚ) * 2 ^ j ≤ (roundHalfEven (x / (1 / 2 ^ j)) : ℚ) := by exact_mod_cast hn
  rw [mul_one_div, le_div_iff₀ hpos2]
  exact hn2

/-- A positive natural number below `2 ^ 53` is a double. -/
theorem roundDouble_natCast {b : ℕ} (hpos : 0 < b) (hb : b < 2 ^ 53) :
    roundDouble b = b := by
  have hb2 : (b : ℚ) < 2 ^ 53 := by exact_mod_cast hb
  have hpos2 : (0 : ℚ) < b := by exact_mod_cast hpos
  exact le_antisymm (roundDouble_le_natCast hpos2.le le_rfl hb)
    (natCast_le_roundDouble le_rfl hpos2 hb2)

/-- Rounding error: half a unit in the last place. -/
theorem abs_roundDouble_sub_le {x : ℚ} {k : ℤ} (hx : 0 ≤ x) (hk : x < 2 ^ (k + 1))
    (hmin : -1022 ≤ k) : |roundDouble x - x| ≤ 2 ^ (k - 53) := by
  rcases hx.eq_or_lt with h0 | hpos
  · rw [← h0, roundDouble_zero]; simp only [sub_zero, abs_zero]; positivity
  have hq := ulpExponent_le hpos hk hmin
  have hpos2 : (0 : ℚ) < 2 ^ ulpExponent x := by positivity
  have h1 := abs_roundHalfEven_sub_le (x / 2 ^ ulpExponent x)
  have hfact : roundDouble x - x
      = ((roundHalfEven (x / 2 ^ ulpExponent x) : ℚ) - x / 2 ^ ulpExponent x)
        * 2 ^ ulpExponent x := by
    unfold roundDouble
    field_simp
  rw [hfact, abs_mul, abs_of_pos hpos2]
  calc |(roundHalfEven (x / 2 ^ ulpExponent x) : ℚ) - x / 2 ^ ulpExponent x|
        * 2 ^ ulpExponent x
      ≤ 1 / 2 * 2 ^ ulpExponent x := mul_le_mul_of_nonneg_right h1 hpos2.le
    _ ≤ 1 / 2 * 2 ^ (k - 52) := by
        apply mul_le_mul_of_nonneg_left _ (by norm_num)
        exact zpow_le_zpow_right₀ (by norm_num) hq
    _ = 2 ^ (k - 53) := by
        have : k - 52 = (k - 53) + 1 := by ring
        rw [this, zpow_add_one₀ (by norm_num)]
        ring

/-- Evaluation of `roundDouble` in the normal range. -/
theorem roundDouble_eq {x : ℚ} (e n : ℤ) (hmin : -1022 ≤ e) (h1 : 2 ^ e ≤ x)
    (h2 : x < 2 ^ (e + 1)) (hn : |x / 2 ^ (e - 52) - n| < 1 / 2) :
    roundDouble x = n * 2 ^ (e - 52) := by
  unfold roundDouble
  rw [ulpExponent_eq hmin h1 h2, roundHalfEven_eq_of_abs_lt hn]

/-! ## The task store -/

/-- C1: `add` with a text whose trimmed form is empty leaves the list unchanged;
otherwise it appends exactly one task at the end, with `completed = false` (and with the
clock value as id), the earlier tasks staying as they were and in the same order.
After any sequence of `add` calls started from the empty list, `totalTasks` is the
number of calls whose trimmed text was not empty. -/
theorem add_spec :
    (∀ (s : AppState) (now : Int) (t : String),
      (trim t = "" → (add now t s).todos = s.todos) ∧
      (trim t ≠ "" → ∃ task : Todo,
        (add now t s).todos = s.todos ++ [task] ∧ task.completed = false ∧ task.id = now)) ∧
    (∀ calls : List (Int × String),
      totalTasks (calls.foldl (fun st c => add c.1 c.2 st) AppState.init)
        = calls.countP (fun c => decide (trim c.2 ≠ ""))) := by
  refine ⟨fun s now t => ⟨add_todos_of_trim_empty now t s, fun h => ?_⟩, fun calls => ?_⟩
  · exact ⟨_, add_todos_of_trim_ne_empty now t s h, rfl, rfl⟩
  · simp [totalTasks, length_foldl_add, AppState.init]

/-- C1 at concrete inputs: blank texts are rejected, a non-blank text is appended, and
three calls of which one has a non-blank text leave one task. -/
theorem add_spec_witness :
    (add 7 "   " AppState.init).todos = [] ∧
    (add 7 "" AppState.init).todos = [] ∧
    (∃ task : Todo, (add 7 "buy milk" AppState.init).todos = [] ++ [task] ∧
      task.completed = false ∧ task.id = 7) ∧
    totalTasks ([((1 : Int), ""), (2, "walk dog"), (3, " \t")].foldl
      (fun st c => add c.1 c.2 st) AppState.init) = 1 :=
  ⟨(add_spec.1 AppState.init 7 "   ").1 (by decide),
   (add_spec.1 AppState.init 7 "").1 (by decide),
   (add_spec.1 AppState.init 7 "buy milk").2 (by decide),
   (add_spec.2 _).trans (by decide)⟩

/-- C2: toggling the same id twice in succession gives back the state it started from, so
every task has its original `completed` flag. -/
theorem toggleTodo_twice (s : AppState) (id : Int) :
    toggleTodo id (toggleTodo id s) = s := by
  cases s with
  | mk todos newTodo editingTodo toasts =>
    simp only [toggleTodo, List.map_map, AppState.mk.injEq, and_true, true_and]
    conv_rhs => rw [← List.map_id todos]
    apply List.map_congr_left
    intro todo _
    cases todo with
    | mk tid text completed =>
      by_cases h : tid = id <;> simp [h]

/-- C3: when the ids of the list are pairwise distinct and `id` occurs in it,
`deleteTodo id` removes exactly one task, the one with that id, and keeps all other
tasks unchanged and in order, so the length drops by exactly 1; and deleting the same
id a second time changes nothing, for every list and id. -/
theorem deleteTodo_spec (s : AppState) (id : Int)
    (hnodup : (ids s).Nodup) (hmem : id ∈ ids s) :
    (∃ (before : List Todo) (t : Todo) (after : List Todo),
      s.todos = before ++ t :: after ∧ t.id = id ∧
      (deleteTodo id s).todos = before ++ after) ∧
    (deleteTodo id s).todos.length + 1 = s.todos.length ∧
    (∀ (s2 : AppState) (id2 : Int),
      (deleteTodo id2 (deleteTodo id2 s2)).todos = (deleteTodo id2 s2).todos) := by
  have hsplit : ∃ (before : List Todo) (t : Todo) (after : List Todo),
      s.todos = before ++ t :: after ∧ t.id = id ∧
      (deleteTodo id s).todos = before ++ after := by
    obtain ⟨t, ht, hid⟩ := List.mem_map.1 hmem
    obtain ⟨before, after, hsplit⟩ := List.append_of_mem ht
    refine ⟨before, t, after, hsplit, hid, ?_⟩
    have hn : (before.map Todo.id ++ id :: after.map Todo.id).Nodup := by
      have := hnodup
      rw [ids, hsplit, List.map_append, List.map_cons, hid] at this
      exact this
    have hb : id ∉ before.map Todo.id := fun hb =>
      (List.nodup_append.1 hn).2.2 hb (List.mem_cons_self _ _)
    have ha : id ∉ after.map Todo.id :=
      (List.nodup_cons.1 (List.nodup_append.1 hn).2.1).1
    simp only [deleteTodo]
    rw [hsplit, List.filter_append, List.filter_cons_of_neg (by simp [hid]),
      filter_ne_id_of_not_mem id before hb, filter_ne_id_of_not_mem id after ha]
  refine ⟨hsplit, ?_, ?_⟩
  · obtain ⟨before, t, after, h1, _, h2⟩ := hsplit
    rw [h1, h2]
    simp only [List.length_append, List.length_cons]
    omega
  · intro s2 id2
    simp [deleteTodo]

/-- C3 at a concrete list: deleting id 2 from the tasks 1, 2, 3 leaves 1 and 3. -/
theorem deleteTodo_spec_witness :
    (∃ (before : List Todo) (t : Todo) (after : List Todo),
      (run [.add 1 "a", .add 2 "b", .add 3 "c"]).todos = before ++ t :: after ∧ t.id = 2 ∧
      (deleteTodo 2 (run [.add 1 "a", .add 2 "b", .add 3 "c"])).todos = before ++ after) ∧
    (deleteTodo 2 (run [.add 1 "a", .add 2 "b", .add 3 "c"])).todos.length + 1
      = (run [.add 1 "a", .add 2 "b", .add 3 "c"]).todos.length :=
  ⟨(deleteTodo_spec (run [.add 1 "a", .add 2 "b", .add 3 "c"]) 2
      (by decide) (by decide)).1,
   (deleteTodo_spec (run [.add 1 "a", .add 2 "b", .add 3 "c"]) 2
      (by decide) (by decide)).2.1⟩

/-- C4: for an id that occurs in the list and any new text (the empty string and
padded strings included), `updateTodo` keeps the length and the order, gives every task
with that id exactly the new text while keeping its id and `completed` flag, leaves every
other task unchanged, and clears the edit session (`editingTodo` becomes `null`). -/
theorem updateTodo_spec (s : AppState) (id : Int) (newText : String)
    (hmem : id ∈ ids s) :
    (updateTodo id newText s).todos.length = s.todos.length ∧
    (∀ (i : Nat) (t : Todo), s.todos[i]? = some t →
      (updateTodo id newText s).todos[i]? = some
        (if t.id = id then { id := t.id, text := newText, completed := t.completed }
         else t)) ∧
    (∃ t ∈ (updateTodo id newText s).todos, t.id = id ∧ t.text = newText) ∧
    (updateTodo id newText s).editingTodo = none := by
  refine ⟨by simp [updateTodo], ?_, ?_, rfl⟩
  · intro i t hi
    simp [updateTodo, List.getElem?_map, hi]
  · obtain ⟨t, ht, hid⟩ := List.mem_map.1 hmem
    refine ⟨{ id := t.id, text := newText, completed := t.completed }, ?_, hid, rfl⟩
    simp only [updateTodo, List.mem_map]
    exact ⟨t, ht, by simp [hid]⟩

/-- C4 at a concrete state: task 1 of two tasks gets the empty text while an edit
session is open. -/
theorem updateTodo_spec_witness :
    (updateTodo 1 "" (setEditingTodo (some ⟨1, "a", false⟩)
      (run [.add 1 "a", .add 2 "b", .toggle 2]))).todos
        = [⟨1, "", false⟩, ⟨2, "b", true⟩] ∧
    (updateTodo 1 "" (setEditingTodo (some ⟨1, "a", false⟩)
      (run [.add 1 "a", .add 2 "b", .toggle 2]))).editingTodo = none :=
  ⟨by decide,
   (updateTodo_spec (setEditingTodo (some ⟨1, "a", false⟩)
      (run [.add 1 "a", .add 2 "b", .toggle 2])) 1 "" (by decide)).2.2.2⟩

/-- C5: for an id that no task of the list carries, `toggleTodo`, `deleteTodo` and
`updateTodo` each return the list unchanged. The three handlers are total functions:
they have a result state on every input, with no error case. -/
theorem missing_id_noop (s : AppState) (id : Int) (newText : String)
    (hid : id ∉ ids s) :
    (toggleTodo id s).todos = s.todos ∧
    (deleteTodo id s).todos = s.todos ∧
    (updateTodo id newText s).todos = s.todos :=
  ⟨map_ite_of_not_mem id _ s.todos hid,
   filter_ne_id_of_not_mem id s.todos hid,
   map_ite_of_not_mem id _ s.todos hid⟩

/-- C5 at a concrete state: id 9 is not among the ids 1 and 2. -/
theorem missing_id_noop_witness :
    (9 : Int) ∉ ids (run [.add 1 "a", .add 2 "b"]) ∧
    (toggleTodo 9 (run [.add 1 "a", .add 2 "b"])).todos = (run [.add 1 "a", .add 2 "b"]).todos ∧
    (deleteTodo 9 (run [.add 1 "a", .add 2 "b"])).todos = (run [.add 1 "a", .add 2 "b"]).todos ∧
    (updateTodo 9 "x" (run [.add 1 "a", .add 2 "b"])).todos
      = (run [.add 1 "a", .add 2 "b"]).todos :=
  ⟨by decide, missing_id_noop (run [.add 1 "a", .add 2 "b"]) 9 "x" (by decide)⟩

/-- C9, refuted as stated: adding the text " a " stores " a ", not its trimmed form "a". -/
theorem add_stores_untrimmed :
    trim " a " ≠ "" ∧
    (add 1 " a " AppState.init).todos = [{ id := 1, text := " a ", completed := false }] ∧
    ((add 1 " a " AppState.init).todos.map Todo.text) ≠ [trim " a "] := by
  decide

/-- C9, amended: for a text whose trimmed form is not empty, the task created by `add`
stores the text exactly as entered (`trim` is only used to decide whether to accept it);
the stored text equals the trimmed text when the text has no leading or trailing
white space to strip. -/
theorem add_stores_text (s : AppState) (now : Int) (t : String) (h : trim t ≠ "") :
    (add now t s).todos = s.todos ++ [{ id := now, text := t, completed := false }] ∧
    ((add now t s).todos.getLast?.map Todo.text) = some t ∧
    (trim t = t → ((add now t s).todos.getLast?.map Todo.text) = some (trim t)) := by
  have hlast : ((add now t s).todos.getLast?.map Todo.text) = some t := by
    rw [add_todos_of_trim_ne_empty now t s h]
    simp
  refine ⟨add_todos_of_trim_ne_empty now t s h, hlast, fun ht => ?_⟩
  rw [ht]
  exact hlast

/-- C9 amended, at a concrete input: " walk dog" is stored with its leading blank. -/
theorem add_stores_text_witness :
    trim " walk dog" ≠ "" ∧
    ((add 4 " walk dog" AppState.init).todos.getLast?.map Todo.text) = some " walk dog" :=
  ⟨by decide, (add_stores_text AppState.init 4 " walk dog" (by decide)).2.1⟩

/-! ## The derived view -/

/-- C6, refuted as stated: with 1 of 3 tasks completed `completionPercentage` is the
double 33.33333333333333, which is `2345624805922133 / 2 ^ 46` and not the rational
`(1 / 3) * 100`; with 11 of 20 completed it is the double 55.00000000000001, which is
`7740561859543041 / 2 ^ 47` and not `(11 / 20) * 100 = 55`. -/
theorem completionPercentage_not_exact :
    totalTasks (run [.add 1 "a", .add 2 "b", .add 3 "c", .toggle 1]) = 3 ∧
    completedTasks (run [.add 1 "a", .add 2 "b", .add 3 "c", .toggle 1]) = 1 ∧
    completionPercentage (run [.add 1 "a", .add 2 "b", .add 3 "c", .toggle 1])
      = 2345624805922133 / 2 ^ 46 ∧
    completionPercentage (run [.add 1 "a", .add 2 "b", .add 3 "c", .toggle 1])
      ≠ ((1 : ℚ) / 3) * 100 ∧
    totalTasks (run ((List.range 20).map (fun i => Action.add i "t")
      ++ (List.range 11).map (fun i => Action.toggle i))) = 20 ∧
    completedTasks (run ((List.range 20).map (fun i => Action.add i "t")
      ++ (List.range 11).map (fun i => Action.toggle i))) = 11 ∧
    completionPercentage (run ((List.range 20).map (fun i => Action.add i "t")
      ++ (List.range 11).map (fun i => Action.toggle i)))
      = 7740561859543041 / 2 ^ 47 ∧
    completionPercentage (run ((List.range 20).map (fun i => Action.add i "t")
      ++ (List.range 11).map (fun i => Action.toggle i)))
      ≠ ((11 : ℚ) / 20) * 100 := by
  have t3 : totalTasks (run [.add 1 "a", .add 2 "b", .add 3 "c", .toggle 1]) = 3 := by
    decide
  have c3 : completedTasks (run [.add 1 "a", .add 2 "b", .add 3 "c", .toggle 1]) = 1 := by
    decide
  have t20 : totalTasks (run ((List.range 20).map (fun i => Action.add i "t")
      ++ (List.range 11).map (fun i => Action.toggle i))) = 20 := by
    decide
  have c20 : completedTasks (run ((List.range 20).map (fun i => Action.add i "t")
      ++ (List.range 11).map (fun i => Action.toggle i))) = 11 := by
    decide
  have r3 : roundDouble ((1 : ℚ) / 3) = 6004799503160661 / 2 ^ 54 := by
    rw [roundDouble_eq (-2) 6004799503160661 (by norm_num) (by norm_num) (by norm_num)
      (by rw [abs_lt]; norm_num)]
    norm_num
  have p3 : roundDouble (6004799503160661 / 2 ^ 54 * 100) = 2345624805922133 / 2 ^ 46 := by
    rw [roundDouble_eq 5 4691249611844266 (by norm_num) (by norm_num) (by norm_num)
      (by rw [abs_lt]; norm_num)]
    norm_num
  have r20 : roundDouble ((11 : ℚ) / 20) = 2476979795053773 / 2 ^ 52 := by
    rw [roundDouble_eq (-1) 4953959590107546 (by norm_num) (by norm_num) (by norm_num)
      (by rw [abs_lt]; norm_num)]
    norm_num
  have p20 : roundDouble (2476979795053773 / 2 ^ 52 * 100) = 7740561859543041 / 2 ^ 47 := by
    rw [roundDouble_eq 5 7740561859543041 (by norm_num) (by norm_num) (by norm_num)
      (by rw [abs_lt]; norm_num)]
    norm_num
  have v3 : completionPercentage (run [.add 1 "a", .add 2 "b", .add 3 "c", .toggle 1])
      = 2345624805922133 / 2 ^ 46 := by
    unfold completionPercentage
    rw [t3, c3, if_pos (by norm_num)]
    simp only [Nat.cast_one, Nat.cast_ofNat]
    rw [r3, p3]
  have v20 : completionPercentage (run ((List.range 20).map (fun i => Action.add i "t")
      ++ (List.range 11).map (fun i => Action.toggle i)))
      = 7740561859543041 / 2 ^ 47 := by
    unfold completionPercentage
    rw [t20, c20, if_pos (by norm_num)]
    simp only [Nat.cast_ofNat]
    rw [r20, p20]
  refine ⟨t3, c3, v3, ?_, t20, c20, v20, ?_⟩
  · rw [v3]; norm_num
  · rw [v20]; norm_num

/-- C6, amended: `completionPercentage` is 0 when `totalTasks` is 0 and otherwise the
result in double arithmetic of `(completedTasks / totalTasks) * 100`, which is within
`164 / 2 ^ 53` of the exact rational `(completedTasks / totalTasks) * 100`; it lies in
[0, 100], is 0 for the empty list and is 100 for every non-empty list whose tasks are
all completed. -/
theorem completionPercentage_spec (s : AppState) :
    0 ≤ completionPercentage s ∧ completionPercentage s ≤ 100 ∧
    |completionPercentage s
      - (if totalTasks s = 0 then 0
         else ((completedTasks s : ℚ) / (totalTasks s : ℚ)) * 100)| ≤ 164 / 2 ^ 53 ∧
    (s.todos = [] → completionPercentage s = 0) ∧
    (s.todos ≠ [] → (∀ t ∈ s.todos, t.completed = true) → completionPercentage s = 100) := by
  have hempty : s.todos = [] → completionPercentage s = 0 := by
    intro h
    simp [completionPercentage, totalTasks, h]
  have hfull : s.todos ≠ [] → (∀ t ∈ s.todos, t.completed = true) →
      completionPercentage s = 100 := by
    intro hne hall
    have hpos : 0 < totalTasks s := List.length_pos.2 hne
    have hall2 : completedTasks s = totalTasks s := by
      unfold completedTasks totalTasks
      rw [List.filter_eq_self.2 hall]
    have hpos2 : (totalTasks s : ℚ) ≠ 0 := by exact_mod_cast hpos.ne.symm
    have h1 : roundDouble 1 = 1 := by
      have := roundDouble_natCast (b := 1) (by norm_num) (by norm_num)
      simpa using this
    have h100 : roundDouble 100 = 100 := by
      have := roundDouble_natCast (b := 100) (by norm_num) (by norm_num)
      simpa using this
    unfold completionPercentage
    rw [if_pos hpos, hall2, div_self hpos2, h1, one_mul, h100]
  by_cases ht : totalTasks s = 0
  · have hp : completionPercentage s = 0 := by
      simp [completionPercentage, ht]
    refine ⟨by rw [hp], by rw [hp]; norm_num, ?_, hempty, hfull⟩
    rw [hp, if_pos ht]
    norm_num
  · have hpos : 0 < totalTasks s := Nat.pos_of_ne_zero ht
    have hpos2 : (0 : ℚ) < (totalTasks s : ℚ) := by exact_mod_cast hpos
    have hle : (completedTasks s : ℚ) ≤ (totalTasks s : ℚ) := by
      exact_mod_cast completedTasks_le_totalTasks s
    have hx0 : (0 : ℚ) ≤ (completedTasks s : ℚ) / (totalTasks s : ℚ) := by positivity
    have hx1 : (completedTasks s : ℚ) / (totalTasks s : ℚ) ≤ ((1 : ℕ) : ℚ) := by
      rw [Nat.cast_one]
      exact (div_le_one hpos2).2 hle
    have hy0 := roundDouble_nonneg hx0
    have hy1 : roundDouble ((completedTasks s : ℚ) / (totalTasks s : ℚ)) ≤ 1 := by
      have := roundDouble_le_natCast hx0 hx1 (by norm_num)
      simpa using this
    have hyerr := abs_roundDouble_sub_le (k := 0) hx0
      (lt_of_le_of_lt hx1 (by norm_num)) (by norm_num)
    have hz0 : (0 : ℚ) ≤ roundDouble ((completedTasks s : ℚ) / (totalTasks s : ℚ)) * 100 := by
      positivity
    have hz1 : roundDouble ((completedTasks s : ℚ) / (totalTasks s : ℚ)) * 100
        ≤ ((100 : ℕ) : ℚ) := by
      push_cast
      linarith
    have hp1 := roundDouble_le_natCast hz0 hz1 (by norm_num)
    have hperr := abs_roundDouble_sub_le (k := 6) hz0
      (lt_of_le_of_lt hz1 (by norm_num)) (by norm_num)
    have hp : completionPercentage s
        = roundDouble (roundDouble ((completedTasks s : ℚ) / (totalTasks s : ℚ)) * 100) := by
      unfold completionPercentage
      rw [if_pos hpos]
    refine ⟨by rw [hp]; exact roundDouble_nonneg hz0, ?_, ?_, hempty, hfull⟩
    · rw [hp]
      simpa using hp1
    · rw [hp, if_neg ht]
      rw [abs_le] at hyerr hperr ⊢
      norm_num at hyerr hperr ⊢
      constructor <;> linarith

/-- C6 amended, on the session of the spec: two tasks added and the first one toggled
give exactly 50; two tasks both toggled give 100. -/
theorem completionPercentage_spec_witness :
    completionPercentage (run [.add 1 "buy milk", .add 2 "walk dog", .toggle 1]) = 50 ∧
    completionPercentage (run [.add 1 "buy milk", .add 2 "walk dog", .toggle 1, .toggle 2])
      = 100 := by
  refine ⟨?_, (completionPercentage_spec _).2.2.2.2 (by decide) (by decide)⟩
  have h1 : totalTasks (run [.add 1 "buy milk", .add 2 "walk dog", .toggle 1]) = 2 := by
    decide
  have h2 : completedTasks (run [.add 1 "buy milk", .add 2 "walk dog", .toggle 1]) = 1 := by
    decide
  have hhalf : roundDouble ((1 : ℚ) / 2) = 1 / 2 := by
    rw [roundDouble_eq (-1) 4503599627370496 (by norm_num) (by norm_num) (by norm_num)
      (by rw [abs_lt]; norm_num)]
    norm_num
  have h50 : roundDouble 50 = 50 := by
    have := roundDouble_natCast (b := 50) (by norm_num) (by norm_num)
    simpa using this
  unfold completionPercentage
  rw [h1, h2, if_pos (by norm_num)]
  simp only [Nat.cast_one, Nat.cast_ofNat]
  rw [hhalf]
  norm_num
  exact h50

/-! ## Invariants over sessions -/

/-- C7, refuted as stated: two `add` calls at the same clock value (a non-decreasing
clock) store two tasks with the same id. -/
theorem duplicate_ids_same_clock :
    (clockValues [.add 5 "a", .add 5 "b"]).Pairwise (fun x y => x ≤ y) ∧
    (run [.add 5 "a", .add 5 "b"]).todos
      = [{ id := 5, text := "a", completed := false },
         { id := 5, text := "b", completed := false }] ∧
    ¬ (ids (run [.add 5 "a", .add 5 "b"])).Nodup := by
  decide

/-- C7, amended: in every state reached from the empty list by a sequence of add,
toggle, delete and updateText actions in which the clock values of the `add` calls that
create a task are strictly increasing, the stored tasks have pairwise distinct ids;
the stored ids are, in order, among the ids handed out, and no id is handed out twice. -/
theorem unique_ids_of_increasing_clock (acts : List Action)
    (hclock : (createdIds acts).Pairwise (fun x y => x < y)) :
    (ids (run acts)).Nodup ∧
    (ids (run acts)).Sublist (createdIds acts) ∧
    (createdIds acts).Nodup := by
  have hnodup : (createdIds acts).Nodup := hclock.imp (fun h => ne_of_lt h)
  have hsub : (ids (run acts)).Sublist (createdIds acts) := by
    have := ids_foldl_step_sublist acts AppState.init
    simpa [run, ids, AppState.init] using this
  exact ⟨hsub.nodup hnodup, hsub, hnodup⟩

/-- C7 amended, on a session with every kind of action and a rejected `add`. -/
theorem unique_ids_of_increasing_clock_witness :
    (createdIds [.add 1 "a", .add 1 " ", .add 2 "b", .toggle 1, .delete 1, .add 3 "c",
      .updateText 2 "d"]).Pairwise (fun x y => x < y) ∧
    ids (run [.add 1 "a", .add 1 " ", .add 2 "b", .toggle 1, .delete 1, .add 3 "c",
      .updateText 2 "d"]) = [2, 3] ∧
    (ids (run [.add 1 "a", .add 1 " ", .add 2 "b", .toggle 1, .delete 1, .add 3 "c",
      .updateText 2 "d"])).Nodup :=
  ⟨by decide, by decide,
   (unique_ids_of_increasing_clock [.add 1 "a", .add 1 " ", .add 2 "b", .toggle 1,
      .delete 1, .add 3 "c", .updateText 2 "d"] (by decide)).1⟩

/-- C8, evaluated at the failing session: after `add("a")` at clock 1 and
`updateText(1, "")` the stored task has the empty string as text. -/
theorem empty_text_after_updateTodo :
    (run [.add 1 "a", .updateText 1 ""]).todos
      = [{ id := 1, text := "", completed := false }] ∧
    (∃ t ∈ (run [.add 1 "a", .updateText 1 ""]).todos, t.text = "") := by
  decide

/-- Sessions in which no `updateText` passes the empty string keep every stored text
non-empty: `addTodo` guards against blank input, `toggleTodo` and `deleteTodo` do not touch
texts. -/
theorem text_ne_empty_of_keepsTextNonEmpty (acts : List Action)
    (hacts : ∀ a ∈ acts, keepsTextNonEmpty a = true) :
    ∀ t ∈ (run acts).todos, t.text ≠ "" := by
  suffices h : ∀ (s : AppState), (∀ t ∈ s.todos, t.text ≠ "") →
      ∀ t ∈ (acts.foldl step s).todos, t.text ≠ "" by
    exact h AppState.init (by simp [AppState.init])
  induction acts with
  | nil => intro s hs; simpa using hs
  | cons a rest ih =>
    intro s hs
    rw [List.foldl_cons]
    apply ih (fun b hb => hacts b (List.mem_cons_of_mem _ hb))
    have ha := hacts a (List.mem_cons_self _ _)
    cases a with
    | add now text =>
      by_cases h : trim text = ""
      · simpa [step, add_todos_of_trim_empty _ _ _ h] using hs
      · intro t ht
        simp only [step, add_todos_of_trim_ne_empty _ _ _ h, List.mem_append,
          List.mem_singleton] at ht
        rcases ht with ht | ht
        · exact hs t ht
        · rw [ht]
          exact ne_empty_of_trim_ne_empty h
    | toggle id =>
      intro t ht
      simp only [step, toggleTodo, List.mem_map] at ht
      obtain ⟨u, hu, rfl⟩ := ht
      by_cases h : u.id = id
      · simpa [h] using hs u hu
      · simpa [h] using hs u hu
    | delete id =>
      intro t ht
      simp only [step, deleteTodo] at ht
      exact hs t (List.mem_of_mem_filter ht)
    | updateText id newText =>
      intro t ht
      simp only [step, updateTodo, List.mem_map] at ht
      obtain ⟨u, hu, rfl⟩ := ht
      have hne : newText ≠ "" := by simpa [keepsTextNonEmpty] using ha
      by_cases h : u.id = id
      · simpa [h] using hne
      · simpa [h] using hs u hu

/-! ## The JSON parser never runs out of fuel -/

theorem skipWs_length_le (cs : List Char) : (skipWs cs).length ≤ cs.length :=
  (List.dropWhile_sublist _).length_le

theorem Parsed.map_eq_ok {α β : Type} {f : α → β} {p : Parsed α} {v : β} {rest : List Char}
    (h : p.map f = .ok v rest) : ∃ w, p = .ok w rest := by
  cases p with
  | ok w r =>
    simp only [Parsed.map, Parsed.ok.injEq] at h
    exact ⟨w, by rw [h.2]⟩
  | invalid => simp [Parsed.map] at h
  | outOfFuel => simp [Parsed.map] at h

theorem Parsed.map_eq_outOfFuel {α β : Type} {f : α → β} {p : Parsed α}
    (h : p.map f = .outOfFuel) : p = .outOfFuel := by
  cases p with
  | ok w r => simp [Parsed.map] at h
  | invalid => simp [Parsed.map] at h
  | outOfFuel => rfl

theorem parseStringBody_spec (n : Nat) : ∀ cs : List Char, cs.length ≤ n →
    parseStringBody cs ≠ .outOfFuel ∧
    ∀ v rest, parseStringBody cs = .ok v rest → rest.length < cs.length := by
  induction n with
  | zero =>
    intro cs hcs
    have : cs = [] := List.length_eq_zero.1 (Nat.le_zero.1 hcs)
    subst this
    simp [parseStringBody]
  | succ n ih =>
    intro cs hcs
    cases cs with
    | nil => simp [parseStringBody]
    | cons c rest =>
      have hrest : rest.length ≤ n := by simpa using hcs
      unfold parseStringBody
      split
      · simp
      · split
        · split
          · simp
          · rename_i e rest2
            have h2 : rest2.length ≤ n := by
              simp only [List.length_cons] at hrest; omega
            split
            · split
              · rename_i a b c2 d rest3
                have h3 : rest3.length ≤ n := by
                  simp only [List.length_cons] at h2; omega
                split
                · refine ⟨fun h => (ih rest3 h3).1 (Parsed.map_eq_outOfFuel h), ?_⟩
                  intro v r h
                  obtain ⟨w, hw⟩ := Parsed.map_eq_ok h
                  have := (ih rest3 h3).2 w r hw
                  simp only [List.length_cons]; omega
                · simp
              · simp
            · split
              · refine ⟨fun h => (ih rest2 h2).1 (Parsed.map_eq_outOfFuel h), ?_⟩
                intro v r h
                obtain ⟨w, hw⟩ := Parsed.map_eq_ok h
                have := (ih rest2 h2).2 w r hw
                simp only [List.length_cons]; omega
              · simp
        · split
          · simp
          · refine ⟨fun h => (ih rest hrest).1 (Parsed.map_eq_outOfFuel h), ?_⟩
            intro v r h
            obtain ⟨w, hw⟩ := Parsed.map_eq_ok h
            have := (ih rest hrest).2 w r hw
            simp only [List.length_cons]; omega

theorem parseFraction_length {cs frac rest : List Char}
    (h : parseFraction cs = some (frac, rest)) : rest.length ≤ cs.length := by
  unfold parseFraction at h
  split at h
  · rename_i r
    split at h
    · simp at h
    · simp only [Option.some.injEq, Prod.mk.injEq] at h
      rw [← h.2]
      have := (List.dropWhile_sublist Char.isDigit (l := r)).length_le
      simp only [List.length_cons]; omega
  · simp only [Option.some.injEq, Prod.mk.injEq] at h
    rw [← h.2]

theorem parseExponentDigits_length {negative : Bool} {cs rest : List Char} {e : Int}
    (h : parseExponentDigits negative cs = some (e, rest)) : rest.length ≤ cs.length := by
  unfold parseExponentDigits at h
  split at h
  · simp at h
  · simp only [Option.some.injEq, Prod.mk.injEq] at h
    rw [← h.2]
    exact (List.dropWhile_sublist Char.isDigit).length_le

theorem parseExponent_length {cs rest : List Char} {e : Int}
    (h : parseExponent cs = some (e, rest)) : rest.length ≤ cs.length := by
  unfold parseExponent at h
  split at h
  · simp only [Option.some.injEq, Prod.mk.injEq] at h
    rw [← h.2]
  · rename_i c r
    split at h
    · split at h
      · have := parseExponentDigits_length h
        simp only [List.length_cons] at *; omega
      · have := parseExponentDigits_length h
        simp only [List.length_cons] at *; omega
      · have := parseExponentDigits_length h
        simp only [List.length_cons] at *; omega
    · simp only [Option.some.injEq, Prod.mk.injEq] at h
      rw [← h.2]

theorem parseUnsigned_spec (negative : Bool) (cs : List Char) :
    parseUnsigned negative cs ≠ .outOfFuel ∧
    ∀ v rest, parseUnsigned negative cs = .ok v rest → rest.length < cs.length := by
  unfold parseUnsigned
  split
  · simp
  · rename_i d r
    split
    · simp
    · split
      · simp
      · rename_i frac cs3 hfrac
        split
        · simp
        · rename_i e cs4 hexp
          refine ⟨by simp, ?_⟩
          intro v rest h
          simp only [Parsed.ok.injEq] at h
          rw [← h.2]
          have h1 := parseFraction_length hfrac
          have h2 := parseExponent_length hexp
          have h3 : (if d = '0' then r else r.dropWhile Char.isDigit).length ≤ r.length := by
            split
            · exact le_refl _
            · exact (List.dropWhile_sublist Char.isDigit).length_le
          simp only [List.length_cons]; omega

theorem parseNumber_spec (cs : List Char) :
    parseNumber cs ≠ .outOfFuel ∧
    ∀ v rest, parseNumber cs = .ok v rest → rest.length < cs.length := by
  unfold parseNumber
  split
  · rename_i r
    refine ⟨(parseUnsigned_spec true r).1, fun v rest h => ?_⟩
    have := (parseUnsigned_spec true r).2 v rest h
    simp only [List.length_cons]; omega
  · exact parseUnsigned_spec false cs

theorem length_lt_of_skipWs_cons {cs rest : List Char} {c : Char}
    (h : skipWs cs = c :: rest) : rest.length < cs.length := by
  have := skipWs_length_le cs
  rw [h] at this
  simp only [List.length_cons] at this
  omega

theorem parse_rest_length (fuel : Nat) :
    (∀ cs v rest, parseValue fuel cs = .ok v rest → rest.length < cs.length) ∧
    (∀ cs v rest, parseElements fuel cs = .ok v rest → rest.length < cs.length) ∧
    (∀ cs v rest, parseMembers fuel cs = .ok v rest → rest.length < cs.length) := by
  induction fuel with
  | zero =>
    refine ⟨?_, ?_, ?_⟩ <;> intro cs v rest h
    · simp [parseValue] at h
    · simp [parseElements] at h
    · simp [parseMembers] at h
  | succ fuel ih =>
    obtain ⟨ihV, ihE, ihM⟩ := ih
    refine ⟨?_, ?_, ?_⟩
    · intro cs v rest h
      rw [parseValue] at h
      split at h
      · rename_i r hs
        simp only [Parsed.ok.injEq] at h
        have := length_lt_of_skipWs_cons hs
        rw [← h.2]; simp only [List.length_cons] at this; omega
      · rename_i r hs
        simp only [Parsed.ok.injEq] at h
        have := length_lt_of_skipWs_cons hs
        rw [← h.2]; simp only [List.length_cons] at this; omega
      · rename_i r hs
        simp only [Parsed.ok.injEq] at h
        have := length_lt_of_skipWs_cons hs
        rw [← h.2]; simp only [List.length_cons] at this; omega
      · rename_i r hs
        obtain ⟨w, hw⟩ := Parsed.map_eq_ok h
        have h1 := (parseStringBody_spec r.length r (le_refl _)).2 w rest hw
        have := length_lt_of_skipWs_cons hs
        omega
      · rename_i r hs
        have h0 := length_lt_of_skipWs_cons hs
        split at h
        · rename_i r2 hs2
          simp only [Parsed.ok.injEq] at h
          have := length_lt_of_skipWs_cons hs2
          rw [← h.2]; omega
        · obtain ⟨w, hw⟩ := Parsed.map_eq_ok h
          have := ihE r w rest hw
          omega
      · rename_i r hs
        have h0 := length_lt_of_skipWs_cons hs
        split at h
        · rename_i r2 hs2
          simp only [Parsed.ok.injEq] at h
          have := length_lt_of_skipWs_cons hs2
          rw [← h.2]; omega
        · obtain ⟨w, hw⟩ := Parsed.map_eq_ok h
          have := ihM r w rest hw
          omega
      · have h1 := (parseNumber_spec (skipWs cs)).2 v rest h
        have := skipWs_length_le cs
        omega
    · intro cs v rest h
      rw [parseElements] at h
      split at h
      · rename_i w r1 hv
        have h1 := ihV cs w r1 hv
        split at h
        · rename_i r2 hs2
          obtain ⟨ws, hws⟩ := Parsed.map_eq_ok h
          have := ihE r2 ws rest hws
          have := length_lt_of_skipWs_cons hs2
          omega
        · rename_i r2 hs2
          simp only [Parsed.ok.injEq] at h
          have := length_lt_of_skipWs_cons hs2
          rw [← h.2]; omega
        · simp at h
      · simp at h
      · simp at h
    · intro cs v rest h
      rw [parseMembers] at h
      split at h
      · rename_i r hs
        have h0 := length_lt_of_skipWs_cons hs
        split at h
        · rename_i key r1 hk
          have h1 := (parseStringBody_spec r.length r (le_refl _)).2 key r1 hk
          split at h
          · rename_i r2 hs2
            have h2 := length_lt_of_skipWs_cons hs2
            split at h
            · rename_i w r3 hv
              have h3 := ihV r2 w r3 hv
              split at h
              · rename_i r4 hs4
                obtain ⟨ws, hws⟩ := Parsed.map_eq_ok h
                have := ihM r4 ws rest hws
                have := length_lt_of_skipWs_cons hs4
                omega
              · rename_i r4 hs4
                simp only [Parsed.ok.injEq] at h
                have := length_lt_of_skipWs_cons hs4
                rw [← h.2]; omega
              · simp at h
            · simp at h
            · simp at h
          · simp at h
        · simp at h
        · simp at h
      · simp at h

theorem parse_fuel_enough (fuel : Nat) :
    (∀ cs, 2 * cs.length < fuel → parseValue fuel cs ≠ .outOfFuel) ∧
    (∀ cs, 2 * cs.length + 1 < fuel → parseElements fuel cs ≠ .outOfFuel) ∧
    (∀ cs, 2 * cs.length + 1 < fuel → parseMembers fuel cs ≠ .outOfFuel) := by
  induction fuel with
  | zero =>
    refine ⟨?_, ?_, ?_⟩ <;> intro cs h <;> omega
  | succ fuel ih =>
    obtain ⟨ihV, ihE, ihM⟩ := ih
    refine ⟨?_, ?_, ?_⟩
    · intro cs hf h
      rw [parseValue] at h
      split at h
      · simp at h
      · simp at h
      · simp at h
      · rename_i r hs
        exact (parseStringBody_spec r.length r (le_refl _)).1 (Parsed.map_eq_outOfFuel h)
      · rename_i r hs
        have h0 := length_lt_of_skipWs_cons hs
        split at h
        · simp at h
        · exact ihE r (by omega) (Parsed.map_eq_outOfFuel h)
      · rename_i r hs
        have h0 := length_lt_of_skipWs_cons hs
        split at h
        · simp at h
        · exact ihM r (by omega) (Parsed.map_eq_outOfFuel h)
      · exact (parseNumber_spec (skipWs cs)).1 h
    · intro cs hf h
      rw [parseElements] at h
      split at h
      · rename_i w r1 hv
        have h1 := (parse_rest_length fuel).1 cs w r1 hv
        split at h
        · rename_i r2 hs2
          have := length_lt_of_skipWs_cons hs2
          exact ihE r2 (by omega) (Parsed.map_eq_outOfFuel h)
        · simp at h
        · simp at h
      · simp at h
      · rename_i hv
        exact ihV cs (by omega) hv
    · intro cs hf h
      rw [parseMembers] at h
      split at h
      · rename_i r hs
        have h0 := length_lt_of_skipWs_cons hs
        split at h
        · rename_i key r1 hk
          have h1 := (parseStringBody_spec r.length r (le_refl _)).2 key r1 hk
          split at h
          · rename_i r2 hs2
            have h2 := length_lt_of_skipWs_cons hs2
            split at h
            · rename_i w r3 hv
              have h3 := (parse_rest_length fuel).1 r2 w r3 hv
              split at h
              · rename_i r4 hs4
                have := length_lt_of_skipWs_cons hs4
                exact ihM r4 (by omega) (Parsed.map_eq_outOfFuel h)
              · simp at h
              · simp at h
            · simp at h
            · rename_i hv
              exact ihV r2 (by omega) hv
          · simp at h
        · simp at h
        · rename_i hk
          exact (parseStringBody_spec r.length r (le_refl _)).1 hk
      · simp at h

/-- The fuel `JSON.parse` starts with is enough on every text: it returns a value or
throws. -/
theorem JSON_parse_ne_outOfFuel (text : String) : JSON.parse text ≠ .outOfFuel := by
  unfold JSON.parse
  split
  · split <;> simp
  · simp
  · rename_i h
    exact absurd h ((parse_fuel_enough _).1 text.data (by omega))

/-- The initialiser of `darkMode` returns a value or throws, on every storage. -/
theorem loadDarkMode_ne_outOfFuel (st : Storage) : loadDarkMode st ≠ .outOfFuel := by
  unfold loadDarkMode
  split
  · simp
  · simp
  · rename_i h
    exact absurd h (JSON_parse_ne_outOfFuel _)

/-! ## The theme preference -/

theorem JSON_parse_true : JSON.parse "true" = .value (.bool true) := rfl

theorem JSON_parse_false : JSON.parse "false" = .value (.bool false) := rfl

theorem JSON_parse_null : JSON.parse "null" = .value .null := rfl

theorem JSON_parse_nested :
    JSON.parse " [1, [true], \x7b\"a\": -2.50e3\x7d, \"b\\u0041\"] "
      = .value (.array [.number false 1 0, .array [.bool true],
          .object [([97], .number true 250 1)], .string [98, 65]]) := rfl

theorem getItem_setItem (key value : String) (st : Storage) :
    getItem key (setItem key value st) = some value := by
  simp [getItem, setItem]

/-- On a storage without the entry the initialiser returns `false`. -/
theorem loadDarkMode_of_missing (st : Storage) (h : getItem "darkMode" st = none) :
    loadDarkMode st = .value (.bool false) := by
  unfold loadDarkMode
  rw [h]
  rfl

/-- After the persistence effect wrote a boolean, the initialiser returns it, whatever
the storage held before. -/
theorem loadDarkMode_persistDarkMode (b : Bool) (st : Storage) :
    loadDarkMode (persistDarkMode b st) = .value (.bool b) := by
  unfold loadDarkMode persistDarkMode
  rw [getItem_setItem]
  cases b <;> rfl


/-- C10, evaluated: the initialiser returns `false` on empty storage and returns the
boolean that the persistence effect wrote; on the stored text "dark", which is not JSON,
`JSON.parse` throws and the initialiser has no value; on the stored text "1" it returns
the number 1, not `false`. -/
theorem loadDarkMode_eval :
    loadDarkMode [] = .value (.bool false) ∧
    loadDarkMode (persistDarkMode true []) = .value (.bool true) ∧
    loadDarkMode (persistDarkMode false (persistDarkMode true [])) = .value (.bool false) ∧
    loadDarkMode [("darkMode", "dark")] = .throws ∧
    loadDarkMode [("darkMode", "1")] = .value (.number false 1 0) :=
  ⟨rfl, rfl, rfl, rfl, rfl⟩

end TodoApp
